import Mathlib

/-!
Verification of the `vpp-api-gen` generator subsystem.

This file shallowly embeds the code of `vpp-api-gen/src/api_gen/parser_helper.rs`,
`vpp-api-gen/src/api_gen/util.rs` and the relevant parts of `vpp-api-gen/src/lib.rs`
as executable Lean definitions, and proves or refutes the frozen claims about the
identifier/type mapper, the import resolver (merge sort), and the tree loader.

Conventions used in the embedding:
- Rust `String` is Lean `String`; character-level work is done on `List Char`
  (the underlying data of a Lean `String`).
- Rust `char::to_uppercase` / `to_lowercase` are modelled with `Char.toUpper` /
  `Char.toLower`; this is exact on ASCII, which is the domain of every claim here.
- Rust `usize` arithmetic is `Nat`; where underflow of `usize` subtraction matters
  (claim about the empty corpus) a checked subtraction returning `Option Nat`
  models the panicking debug semantics explicitly.
- Loops are translated into structural recursions; where a recursion is not
  structural in Lean, an explicit fuel argument bounded by an easily computed
  quantity (a list length or a term size) makes every definition kernel-reducible,
  so concrete witnesses can be checked by `decide` / `rfl`.
- `HashMap<String, String>` (the enum container registry) is modelled as an
  association list queried with `List.lookup`; `LinkedHashMap` (the loaded-file
  map) is an association list with position-preserving insertion.
-/

namespace VppApiGen

/-! ## Character-level string helpers (Rust std semantics) -/

/-- Rust `str::trim_start_matches(pat)` removes every occurrence of the pattern
from the front, repeatedly.  The fuel is the string length: each successful strip
removes at least one character, so `s.length` rounds of stripping are always
enough; the wrapper `trimStartMatchesL` supplies that fuel. -/
def trimStartAux (p : List Char) : Nat → List Char → List Char
  | 0, s => s
  | fuel + 1, s =>
    if p ≠ [] ∧ p.isPrefixOf s then trimStartAux p fuel (s.drop p.length) else s

/-- Rust `str::trim_start_matches(pat)` on character lists. -/
def trimStartMatchesL (p s : List Char) : List Char :=
  trimStartAux p s.length s

/-- Rust `str::trim_end_matches(pat)` removes every occurrence of the pattern
from the end, repeatedly (fuelled like `trimStartAux`). -/
def trimEndAux (p : List Char) : Nat → List Char → List Char
  | 0, s => s
  | fuel + 1, s =>
    if p ≠ [] ∧ p.isSuffixOf s then trimEndAux p fuel (s.take (s.length - p.length)) else s

/-- Rust `str::trim_end_matches(pat)` on character lists. -/
def trimEndMatchesL (p s : List Char) : List Char :=
  trimEndAux p s.length s

/-- Rust `str::split("_")`: splits at every underscore, keeping empty segments
(`"a__b"` gives `["a", "", "b"]`, `""` gives `[""]`), exactly as the iterator
collected in `camelize_ident` does. -/
def splitUnderscore : List Char → List (List Char)
  | [] => [[]]
  | c :: cs =>
    if c = '_' then [] :: splitUnderscore cs
    else
      match splitUnderscore cs with
      | [] => [[c]]
      | s :: ss => (c :: s) :: ss

/-- The inner loop of `camelize_ident`: the first character of a segment is
pushed uppercased, every later character is pushed unchanged. -/
def capitalizeSeg : List Char → List Char
  | [] => []
  | c :: cs => c.toUpper :: cs

/-! ## parser_helper.rs: the identifier and type mapper -/

/-- `camelize_ident` from `parser_helper.rs` (lines 130-146) on character lists:
split the identifier on `"_"`, then append the segments with the first character
of each segment uppercased.  The source's nested for-loops build exactly the
concatenation of the capitalized segments in order. -/
def camelizeIdentL (ident : List Char) : List Char :=
  ((splitUnderscore ident).map capitalizeSeg).flatten

/-- `camelize_ident` from `parser_helper.rs` on strings. -/
def camelize_ident (ident : String) : String :=
  ⟨camelizeIdentL ident.data⟩

/-- `get_type` from `parser_helper.rs` (lines 41-52): names starting with
`"vl_api_"` are trimmed (`trim_start_matches("vl_api_")`, then
`trim_end_matches("_t")`) and camelized; `"string"` maps to `"String"`;
everything else passes through. -/
def get_type (apitype : String) : String :=
  if ("vl_api_".data).isPrefixOf apitype.data then
    camelize_ident ⟨trimEndMatchesL ("_t".data) (trimStartMatchesL ("vl_api_".data) apitype.data)⟩
  else if apitype = "string" then
    "String"
  else
    apitype

/-- `get_ident` from `parser_helper.rs` (lines 53-63): `"type"` maps to
`"typ"`, `"match"` maps to `"mach"`, every other name goes through
`trim_start_matches("_")`. -/
def get_ident (api_ident : String) : String :=
  if api_ident = "type" then "typ"
  else if api_ident = "match" then "mach"
  else ⟨trimStartMatchesL ('_' :: []) api_ident.data⟩

/-! ## Model of the convert_case crate's UpperCamel conversion

`get_rust_type_from_ctype` and `camelize` call `to_case(Case::UpperCamel)` from
the external `convert_case` crate, whose source is not part of this repository.
The definitions below are modelled from that crate's documented behavior:
the input is split into words at delimiters (underscore, hyphen, space, which
are dropped), at a lowercase-to-uppercase transition, and at the acronym
transition (inside an uppercase run followed by a lowercase character); each
word is then rendered in UpperCamel style, first character uppercased and the
remaining characters lowercased, and the words are concatenated.  ASCII
character classes are used (the claims below only involve ASCII input). -/

/-- Delimiter characters dropped by the case converter. -/
def isDelim (c : Char) : Bool :=
  c = '_' || c = '-' || c = ' '

/-- ASCII lowercase letters, as an explicit character list. -/
def lowerChars : List Char :=
  ['a', 'b', 'c', 'd', 'e', 'f', 'g', 'h', 'i', 'j', 'k', 'l', 'm',
   'n', 'o', 'p', 'q', 'r', 's', 't', 'u', 'v', 'w', 'x', 'y', 'z']

/-- ASCII uppercase letters, as an explicit character list. -/
def upperChars : List Char :=
  ['A', 'B', 'C', 'D', 'E', 'F', 'G', 'H', 'I', 'J', 'K', 'L', 'M',
   'N', 'O', 'P', 'Q', 'R', 'S', 'T', 'U', 'V', 'W', 'X', 'Y', 'Z']

/-- An ASCII lowercase letter. -/
def isLowerChar (c : Char) : Bool :=
  c ∈ lowerChars

/-- An ASCII uppercase letter. -/
def isUpperChar (c : Char) : Bool :=
  c ∈ upperChars

/-- Modelled from the spec: split a delimiter-free run at case boundaries
(lowercase followed by uppercase, and the acronym boundary: uppercase,
uppercase, lowercase), as the convert_case crate does. -/
def caseSplit : List Char → List (List Char)
  | [] => []
  | [c] => [[c]]
  | a :: b :: rest =>
    if (isLowerChar a && isUpperChar b)
        || (isUpperChar a && isUpperChar b &&
            (match rest with | d :: _ => isLowerChar d | [] => false)) then
      [a] :: caseSplit (b :: rest)
    else
      match caseSplit (b :: rest) with
      | [] => [[a]]
      | w :: ws => (a :: w) :: ws

/-- Modelled from the spec: split at delimiter characters, keeping empty
segments (they are filtered away afterwards, as convert_case produces no
empty words). -/
def delimSegs : List Char → List (List Char)
  | [] => [[]]
  | c :: cs =>
    if isDelim c then [] :: delimSegs cs
    else
      match delimSegs cs with
      | [] => [[c]]
      | s :: ss => (c :: s) :: ss

/-- Modelled from the spec: render one word in UpperCamel style: first
character uppercased, the rest lowercased. -/
def renderWord : List Char → List Char
  | [] => []
  | c :: cs => c.toUpper :: cs.map Char.toLower

/-- Modelled from the spec: the convert_case crate's
`to_case(Case::UpperCamel)` on character lists. -/
def toCaseUpperCamelL (l : List Char) : List Char :=
  ((((delimSegs l).filter (fun w => w ≠ [])).map caseSplit).flatten.map renderWord).flatten

/-- Modelled from the spec: the convert_case crate's
`to_case(Case::UpperCamel)` on strings. -/
def toCaseUpperCamel (s : String) : String :=
  ⟨toCaseUpperCamelL s.data⟩

/-- `camelize` from `parser_helper.rs` (lines 148-151): delegates to the
convert_case crate's UpperCamel conversion. -/
def camelize (ident : String) : String :=
  toCaseUpperCamel ident

/-! ## parser_helper.rs: field types -/

/-- The resolved base type name computed by the `let rtype` binding of
`get_rust_type_from_ctype` (lines 70-75): `"vl_api_"`-prefixed names are
trimmed and converted with convert_case UpperCamel, everything else passes
through unchanged (note: unlike `get_type`, there is no special case for
`"string"` here). -/
def resolveBaseName (ctype : String) : String :=
  if ("vl_api_".data).isPrefixOf ctype.data then
    toCaseUpperCamel ⟨trimEndMatchesL ("_t".data) (trimStartMatchesL ("vl_api_".data) ctype.data)⟩
  else
    ctype

/-- `get_rust_type_from_ctype` from `parser_helper.rs` (lines 65-86).  The
`HashMap<String, String>` registry of enum container widths is modelled as an
association list queried by key. -/
def get_rust_type_from_ctype (enum_containers : List (String × String)) (ctype : String) : String :=
  let rtype := resolveBaseName ctype
  match enum_containers.lookup rtype with
  | some container => "SizedEnum<" ++ rtype ++ ", " ++ container ++ ">"
  | none => rtype

/-- Modelled from the spec: the optional size descriptor of a field,
`Fixed(N)` or `Variable(optional max)` (the schema type definitions of
`file_schema.rs` / `types.rs` are not under `src/`). -/
inductive VppJsApiFieldSize where
  | Variable (maxVar : Option String)
  | Fixed (maxsz : Nat)
deriving DecidableEq, Repr

/-- Modelled from the spec: a message field descriptor carries a name, a
wire-level type name (ctype), an optional size descriptor and an optional
legal-value-options list (informational only). -/
structure VppJsApiMessageFieldDef where
  name : String
  ctype : String
  maybe_size : Option VppJsApiFieldSize
  maybe_options : Option (List String)
deriving DecidableEq, Repr

/-- Modelled from the spec: the informational Debug rendering of a field used
inside the emitted comment when a field carries options.  No claim inspects
its content; it is carried as the field's name and ctype. -/
def debugRepr (fld : VppJsApiMessageFieldDef) : String :=
  fld.name ++ " " ++ fld.ctype

/-- Rust `{}` Debug/Display formatting of a `bool`. -/
def boolStr (b : Bool) : String :=
  if b then "true" else "false"

/-- The `full_rtype` computation of `get_rust_field_type` (lines 103-122):
a field with a size descriptor is wrapped in one of the four container forms,
a field without one keeps its resolved type. -/
def fieldTypeCore (enum_containers : List (String × String))
    (fld : VppJsApiMessageFieldDef) : String :=
  let rtype := get_rust_type_from_ctype enum_containers fld.ctype
  match fld.maybe_size with
  | some size =>
    match size with
    | .Variable _max_var =>
      if fld.ctype = "string" then "VariableSizeString"
      else "VariableSizeArray<" ++ rtype ++ ">"
    | .Fixed maxsz =>
      if fld.ctype = "string" then "FixedSizeString<typenum::U" ++ toString maxsz ++ ">"
      else "FixedSizeArray<" ++ rtype ++ ", typenum::U" ++ toString maxsz ++ ">"
  | none => rtype

/-- `get_rust_field_type` from `parser_helper.rs` (lines 96-128): the
`full_rtype` of `fieldTypeCore`, with the informational options comment
appended when the field carries options. -/
def get_rust_field_type (enum_containers : List (String × String))
    (fld : VppJsApiMessageFieldDef) (is_last : Bool) : String :=
  if fld.maybe_options = none then
    fieldTypeCore enum_containers fld
  else
    fieldTypeCore enum_containers fld ++ " /* " ++ debugRepr fld ++ " " ++ boolStr is_last ++ " */"

/-! ## Reference formulation of the camelization described by the spec

The spec describes `map_type_identifier`'s camelization as "splitting on
underscores and uppercasing each segment's first character".  `camelScan` is
that description written as a single left-to-right scanner (a formulation
independent of the segment list built by the source); proving it equal to
`camelizeIdentL` settles that the source implements the described transform. -/

/-- One-pass scanner: `atStart` records whether the next character begins a
segment (and is therefore uppercased); underscores are dropped and restart a
segment. -/
def camelScan (atStart : Bool) : List Char → List Char
  | [] => []
  | c :: cs =>
    if c = '_' then camelScan true cs
    else (if atStart then c.toUpper else c) :: camelScan false cs

/-! ## Schema files and util.rs: the import resolver's merge sort -/

/-- Modelled from the spec: one parsed schema file.  Only the components the
verified claims inspect are carried: the version string and the ordered list
of import references (the full `file_schema.rs` is not under `src/`). -/
structure VppJsApiFile where
  vl_api_version : String
  imports : List String
deriving DecidableEq, Repr

/-- `ImportsFiles` from `util.rs` (lines 3-7): a file name paired with its
parsed schema file (the `Box` indirection is immaterial here). -/
structure ImportsFiles where
  name : String
  file : VppJsApiFile
deriving DecidableEq, Repr

/-- The sort key used by `merge` (line 26): `file.imports.len()`. -/
def sortKey (x : ImportsFiles) : Nat :=
  x.file.imports.length

/-- The Rust slice `&arr[a..b]`. -/
def listSlice (arr : List ImportsFiles) (a b : Nat) : List ImportsFiles :=
  (arr.drop a).take (b - a)

/-- The three while-loops of `merge` (lines 25-46) on the two slices: while
both runs are nonempty take the strictly smaller head (the right head on
ties, since the comparison is `<`), then copy whichever run remains.  The
fuel is the total length of the two runs, which is exactly the number of
iterations the loops perform; the wrapper `mergeRuns` supplies it. -/
def mergeRunsAux : Nat → List ImportsFiles → List ImportsFiles → List ImportsFiles
  | 0, l, r => l ++ r
  | fuel + 1, l, r =>
    match l, r with
    | [], r => r
    | l, [] => l
    | a :: l', b :: r' =>
      if sortKey a < sortKey b then a :: mergeRunsAux fuel l' (b :: r')
      else b :: mergeRunsAux fuel (a :: l') r'

/-- The merged contents of the two runs. -/
def mergeRuns (l r : List ImportsFiles) : List ImportsFiles :=
  mergeRunsAux (l.length + r.length) l r

/-- `merge` from `util.rs` (lines 9-48): the loops overwrite exactly the
positions `left..right` of `arr` with the merge of the slices
`arr[left..mid]` and `arr[mid..right]` (taken from unmodified clones of the
input), leaving every position outside `left..right` untouched. -/
def merge (arr : List ImportsFiles) (left mid right : Nat) : List ImportsFiles :=
  arr.take left ++ mergeRuns (listSlice arr left mid) (listSlice arr mid right) ++ arr.drop right

/-- `merge_sort` from `util.rs` (lines 50-58), with recursion depth bounded by
the fuel.  The guard `right - 1 > left` is `Nat` (truncating) subtraction
here, which coincides with Rust `usize` subtraction whenever `right ≥ 1`; the
underflowing `right = 0` case is covered separately by `mergeSortChecked`.
An interval of width `w ≥ 2` recurses into intervals of width at most
`w - 1`, so fuel `right - left` (supplied by the wrapper `merge_sort`) always
suffices. -/
def mergeSortAux : Nat → List ImportsFiles → Nat → Nat → List ImportsFiles
  | 0, arr, _, _ => arr
  | fuel + 1, arr, left, right =>
    if right - 1 > left then
      merge
        (mergeSortAux fuel (mergeSortAux fuel arr left (left + (right - left) / 2))
          (left + (right - left) / 2) right)
        left (left + (right - left) / 2) right
    else arr

/-- `merge_sort` from `util.rs` (lines 50-58). -/
def merge_sort (arr : List ImportsFiles) (left right : Nat) : List ImportsFiles :=
  mergeSortAux (right - left) arr left right

/-- Rust `usize` subtraction in its checked (debug: panicking) semantics:
`none` models the "attempt to subtract with overflow" abort. -/
def checkedSub (a b : Nat) : Option Nat :=
  if b ≤ a then some (a - b) else none

/-- `merge_sort` with the guard's `right - 1` subtraction given its Rust
debug semantics: on underflow (`right = 0`) the call aborts instead of
returning (in release builds the wrapped `usize::MAX` makes the guard true
and the call recurses forever at width zero — either way it never returns
normally).  Everywhere else this agrees with `merge_sort`. -/
def mergeSortChecked (arr : List ImportsFiles) (left right : Nat) :
    Except String (List ImportsFiles) :=
  match h : checkedSub right 1 with
  | none => .error "attempt to subtract with overflow"
  | some r1 =>
    if hg : r1 > left then
      let mid := left + (right - left) / 2
      do
        let a1 ← mergeSortChecked arr left mid
        let a2 ← mergeSortChecked a1 mid right
        pure (merge a2 left mid right)
    else pure arr
termination_by right - left
decreasing_by
  all_goals
    simp only [checkedSub] at h
    split at h
    · simp only [Option.some.injEq] at h
      omega
    · exact absurd h (by simp)

/-- The types-file collection loop of `parse_type_tree` in `lib.rs`
(lines 79-88 and 149-157): every loaded file whose path ends in
`"_types.api.json"` is wrapped into an `ImportsFiles` entry, in load order. -/
def importCollection (api_files : List (String × VppJsApiFile)) : List ImportsFiles :=
  api_files.filterMap fun p =>
    if p.1.endsWith "_types.api.json" then some ⟨p.1, p.2⟩ else none

/-! ## parser_helper.rs: the tree loader -/

/-- A directory tree handed to the tree loader: regular files carry the
outcome of `read_to_string` (so the model covers the read-failure branch of
the source as well), directories carry their entries in `read_dir` order. -/
inductive FsEntry where
  | file (name : String) (content : Except String String)
  | dir (name : String) (entries : List FsEntry)
deriving Repr

/-- Position-preserving insertion of the `linked_hash_map::LinkedHashMap`
used by `parse_api_tree`: an existing key keeps its position and gets the new
value, a new key is appended. -/
def lhmInsert : List (String × VppJsApiFile) → String → VppJsApiFile →
    List (String × VppJsApiFile)
  | [], k, v => [(k, v)]
  | (k', v') :: rest, k, v =>
    if k' = k then (k', v) :: rest else (k', v') :: lhmInsert rest k v

/-! The structural size of a directory tree, used as the induction measure in
the tree-loader proofs. -/

mutual

def entSize : FsEntry → Nat
  | .file _ _ => 1
  | .dir _ sub => 1 + entsSize sub

def entsSize : List FsEntry → Nat
  | [] => 1
  | e :: rest => 1 + entSize e + entsSize rest

end

/-! One step of `parse_api_tree` from `parser_helper.rs` (lines 10-40), and
the walk over a directory listing.  `VppJsApiFile::from_str` (serde parsing,
defined in `file_schema.rs` which is not under `src/`) is abstracted as the
`parse` argument.  For each regular file in order: a readable, parseable file
is inserted into the map under its full path; a file that fails to read or to
parse appends a diagnostic naming the path and the error and is skipped.
Directory entries other than `"."` and `".."` are recursed into at their
position in the walk. -/

mutual

def parseTreeEntry (parse : String → Except String VppJsApiFile) (root : String) :
    FsEntry → List (String × VppJsApiFile) × List String →
    List (String × VppJsApiFile) × List String
  | .file name content, (map, diags) =>
    let path := root ++ "/" ++ name
    match content with
    | .ok data =>
      match parse data with
      | .ok d => (lhmInsert map path d, diags)
      | .error e => (map, diags ++ ["Error loading " ++ path ++ ": " ++ e])
    | .error e => (map, diags ++ ["Error reading " ++ path ++ ": " ++ e])
  | .dir name sub, (map, diags) =>
    if name ≠ "." ∧ name ≠ ".." then
      parseTreeList parse (root ++ "/" ++ name) sub (map, diags)
    else (map, diags)

def parseTreeList (parse : String → Except String VppJsApiFile) (root : String) :
    List FsEntry → List (String × VppJsApiFile) × List String →
    List (String × VppJsApiFile) × List String
  | [], st => st
  | e :: rest, st => parseTreeList parse root rest (parseTreeEntry parse root e st)

end

/-- `parse_api_tree` from `parser_helper.rs` (lines 10-40): walks the tree
rooted at `root`, returning the loaded-file map and the emitted diagnostics. -/
def parse_api_tree (parse : String → Except String VppJsApiFile) (root : String)
    (entries : List FsEntry) (map : List (String × VppJsApiFile)) (diags : List String) :
    List (String × VppJsApiFile) × List String :=
  parseTreeList parse root entries (map, diags)

/-! The regular files met by the walk, in first-seen order, with their full
paths and read outcomes (spec-side description of the walk order). -/

mutual

def walkEntry (root : String) : FsEntry → List (String × Except String String)
  | .file name content => [(root ++ "/" ++ name, content)]
  | .dir name sub =>
    if name ≠ "." ∧ name ≠ ".." then walkList (root ++ "/" ++ name) sub else []

def walkList (root : String) : List FsEntry → List (String × Except String String)
  | [] => []
  | e :: rest => walkEntry root e ++ walkList root rest

end

/-- The regular files met by the walk from `root`, in first-seen order. -/
def walkFiles (root : String) (entries : List FsEntry) : List (String × Except String String) :=
  walkList root entries

/-- The successfully read and parsed files of a walk, keyed by full path, in
walk order. -/
def successes (parse : String → Except String VppJsApiFile)
    (l : List (String × Except String String)) : List (String × VppJsApiFile) :=
  l.filterMap fun pc =>
    match pc.2 with
    | .ok data =>
      match parse data with
      | .ok d => some (pc.1, d)
      | .error _ => none
    | .error _ => none

/-- The diagnostics a walk emits, in walk order. -/
def failures (parse : String → Except String VppJsApiFile)
    (l : List (String × Except String String)) : List String :=
  l.filterMap fun pc =>
    match pc.2 with
    | .ok data =>
      match parse data with
      | .ok _ => none
      | .error e => some ("Error loading " ++ pc.1 ++ ": " ++ e)
    | .error e => some ("Error reading " ++ pc.1 ++ ": " ++ e)

/-! ## Auxiliary definitions used only in statements and proofs -/

/-- The camelization of the tail of a segment already begun: the rest of the
current segment is kept verbatim, the remaining segments are capitalized
(companion of `camelScan false` in the scanner/splitter equivalence). -/
def tailCamelL (l : List Char) : List Char :=
  match splitUnderscore l with
  | [] => []
  | s :: ss => s ++ ((ss.map capitalizeSeg).flatten)

/-- Ascending comparison of two import-file entries by their import count,
the order `merge_sort` is claimed to produce. -/
def impLe (x y : ImportsFiles) : Prop :=
  sortKey x ≤ sortKey y

instance : DecidableRel impLe :=
  fun x y => Nat.decLe (sortKey x) (sortKey y)

/-- Concrete three-entry types-file collection used to witness the import
resolver claim (import counts 2, 0, 1). -/
def exArr : List ImportsFiles :=
  [⟨"a", ⟨"", ["x", "y"]⟩⟩, ⟨"b", ⟨"", []⟩⟩, ⟨"c", ⟨"", ["z"]⟩⟩]

/-- Concrete entry with one import, named `a`, used in the tie-direction
witness. -/
def tieA : ImportsFiles := ⟨"a", ⟨"", ["x"]⟩⟩

/-- Concrete entry with one import, named `b`, used in the tie-direction
witness. -/
def tieB : ImportsFiles := ⟨"b", ⟨"", ["y"]⟩⟩

/-- Concrete three-file directory used to witness the tree-loader claim: one
malformed file between two well-formed ones. -/
def exTree : List FsEntry :=
  [.file "a.api.json" (.ok "A"), .file "bad.api.json" (.ok "XXX"),
   .file "c.api.json" (.ok "C")]

/-- Concrete parser used to witness the tree-loader claim: the content
`"XXX"` is malformed, everything else parses to a file with that version and
no imports. -/
def exParse : String → Except String VppJsApiFile :=
  fun s => if s = "XXX" then .error "expected value" else .ok ⟨s, []⟩

/-! ## Theorems -/

/-- C3: for every field that carries a size descriptor, the field-type mapper
produces exactly one of four container forms selected by the pair (is the
ctype `"string"`?, is the descriptor fixed or variable): the variable-size
string container, a variable-size array of the element type, the fixed-size
string container parametrized by N, or a fixed-size array of the element type
parametrized by N; the informational options comment is appended when, and
only when, the field carries options. -/
theorem c3_field_container_forms
    (ec : List (String × String)) (fld : VppJsApiMessageFieldDef)
    (sz : VppJsApiFieldSize) (is_last : Bool)
    (hsz : fld.maybe_size = some sz) :
    (fieldTypeCore ec fld =
      if fld.ctype = "string" then
        match sz with
        | .Variable _ => "VariableSizeString"
        | .Fixed n => "FixedSizeString<typenum::U" ++ toString n ++ ">"
      else
        match sz with
        | .Variable _ =>
          "VariableSizeArray<" ++ get_rust_type_from_ctype ec fld.ctype ++ ">"
        | .Fixed n =>
          "FixedSizeArray<" ++ get_rust_type_from_ctype ec fld.ctype ++
            ", typenum::U" ++ toString n ++ ">") ∧
    (fld.maybe_options = none →
      get_rust_field_type ec fld is_last = fieldTypeCore ec fld) ∧
    (fld.maybe_options ≠ none →
      get_rust_field_type ec fld is_last =
        fieldTypeCore ec fld ++ " /* " ++ debugRepr fld ++ " " ++ boolStr is_last ++ " */") := by
  refine ⟨?_, ?_, ?_⟩
  · simp only [fieldTypeCore, hsz]
    cases sz <;> by_cases h : fld.ctype = "string" <;> simp [h]
  · intro h
    simp [get_rust_field_type, h]
  · intro h
    simp [get_rust_field_type, h]

/-- C3 witness: a string field with fixed size 64 maps to the fixed-size
string container parametrized by 64. -/
theorem c3_witness :
    get_rust_field_type [] ⟨"x", "string", some (.Fixed 64), none⟩ false =
      "FixedSizeString<typenum::U64>" := by
  have h := c3_field_container_forms [] ⟨"x", "string", some (.Fixed 64), none⟩
    (.Fixed 64) false rfl
  rw [h.2.1 rfl, h.1]
  decide

/-- C4: a field with no size descriptor whose resolved base type name is
registered in the enum-width registry with width W maps to the sized-enum
container parametrized by the resolved type name and W.  The registry is an
explicit argument of the mapper, so the result depends only on its contents,
not on any declaration order: any registry population that precedes field
mapping (the full-corpus enum scan) yields this result. -/
theorem c4_sized_enum_wrap
    (ec : List (String × String)) (fld : VppJsApiMessageFieldDef) (W : String) (is_last : Bool)
    (hsz : fld.maybe_size = none) (hopt : fld.maybe_options = none)
    (hreg : ec.lookup (resolveBaseName fld.ctype) = some W) :
    get_rust_field_type ec fld is_last =
      "SizedEnum<" ++ resolveBaseName fld.ctype ++ ", " ++ W ++ ">" := by
  simp [get_rust_field_type, hopt, fieldTypeCore, hsz, get_rust_type_from_ctype, hreg]

/-- C4 witness: with `Foo` registered at width `u8`, a sizeless field of
ctype `vl_api_foo_t` maps to `SizedEnum<Foo, u8>`. -/
theorem c4_witness :
    get_rust_field_type [("Foo", "u8")] ⟨"f", "vl_api_foo_t", none, none⟩ false =
      "SizedEnum<Foo, u8>" := by
  have h := c4_sized_enum_wrap [("Foo", "u8")] ⟨"f", "vl_api_foo_t", none, none⟩
    "u8" false rfl rfl (by decide)
  rw [h]
  decide

/-- C1 counterexample: `trim_start_matches` / `trim_end_matches` remove every
occurrence of the prefix and suffix, not exactly one.  On
`"vl_api_vl_api_foo_t"` (which begins with the prefix and ends with the
suffix) removing exactly one occurrence of each leaves `"vl_api_foo"`, whose
upper-camel-case form is `"VlApiFoo"`, but `get_type` yields `"Foo"`. -/
theorem c1_counterexample_double_trim :
    get_type "vl_api_vl_api_foo_t" = "Foo" ∧
    camelize_ident "vl_api_foo" = "VlApiFoo" ∧
    ("Foo" : String) ≠ "VlApiFoo" := by decide

/-- C2 counterexample: `trim_start_matches("_")` strips every leading
underscore, so `"__foo"` maps to `"foo"`, not to `"_foo"` as stripping a
single leading underscore would give. -/
theorem c2_counterexample_double_underscore :
    get_ident "__foo" = "foo" ∧ ("foo" : String) ≠ "_foo" := by decide

/-- C5 counterexample: inside `get_rust_field_type` the base type is resolved
by `get_rust_type_from_ctype`, which has no special case for `"string"`: a
field of ctype `"string"` with no size descriptor maps to the pass-through
`"string"`, while `get_type` maps `"string"` to the text container
`"String"`. -/
theorem c5_counterexample_string_passthrough :
    get_rust_field_type [] ⟨"txt", "string", none, none⟩ false = "string" ∧
    get_type "string" = "String" ∧
    ("string" : String) ≠ "String" := by decide

/-- C6 counterexample: on the ASCII underscore-delimited identifier
`"tcp_MSS"` the character-by-character splitter keeps the uppercase run
(`"TcpMSS"`) while the case-conversion utility lowercases the tail of each
word (`"TcpMss"`), so the two strategies do not agree on every ASCII
underscore-delimited input. -/
theorem c6_counterexample_uppercase_run :
    camelize_ident "tcp_MSS" = "TcpMSS" ∧ camelize "tcp_MSS" = "TcpMss" ∧
    camelize_ident "tcp_MSS" ≠ camelize "tcp_MSS" := by decide

/-- C8 counterexample: `merge` compares with strict `<` and takes the
right-half entry on ties, so two entries with equal import counts come out in
reversed order: the sort is not stable. -/
theorem c8_counterexample_unstable_tie :
    merge_sort [⟨"a", ⟨"", ["x"]⟩⟩, ⟨"b", ⟨"", ["y"]⟩⟩] 0 2 =
      [⟨"b", ⟨"", ["y"]⟩⟩, ⟨"a", ⟨"", ["x"]⟩⟩] ∧
    sortKey ⟨"a", ⟨"", ["x"]⟩⟩ = sortKey ⟨"b", ⟨"", ["y"]⟩⟩ ∧
    merge_sort [⟨"a", ⟨"", ["x"]⟩⟩, ⟨"b", ⟨"", ["y"]⟩⟩] 0 2 ≠
      [⟨"a", ⟨"", ["x"]⟩⟩, ⟨"b", ⟨"", ["y"]⟩⟩] := by decide

/-- Stripping every leading underscore is the same as dropping the maximal
leading run of underscores. -/
theorem trimStartAux_underscore :
    ∀ (fuel : Nat) (s : List Char), s.length ≤ fuel →
      trimStartAux ('_' :: []) fuel s = s.dropWhile (fun c => c == '_') := by
  intro fuel
  induction fuel with
  | zero =>
    intro s h
    have hs : s = [] := List.eq_nil_of_length_eq_zero (by omega)
    subst hs
    simp [trimStartAux, List.dropWhile]
  | succ n ih =>
    intro s h
    cases s with
    | nil => simp [trimStartAux, List.isPrefixOf, List.dropWhile]
    | cons c t =>
      by_cases hc : c = '_'
      · subst hc
        have hpre : (('_' :: []) : List Char).isPrefixOf ('_' :: t) = true := by
          simp [List.isPrefixOf]
        simp only [trimStartAux, List.dropWhile]
        rw [if_pos ⟨by simp, hpre⟩]
        simp only [List.length_singleton, List.drop_succ_cons, List.drop_zero]
        rw [ih t (by simp at h; omega)]
        simp
      · have hpre : (('_' :: []) : List Char).isPrefixOf (c :: t) = false := by
          simp [List.isPrefixOf]
          exact fun hh => absurd hh.symm hc
        simp only [trimStartAux, List.dropWhile]
        rw [if_neg (by simp [hpre])]
        simp [show (c == '_') = false by simpa using hc]

/-- C2 (amended): `get_ident` maps `"type"` to `"typ"` and `"match"` to
`"mach"`; every other name has ALL leading underscores stripped (Rust
`trim_start_matches` removes every matching prefix), other characters are
unchanged. -/
theorem c2_get_ident_amended :
    get_ident "type" = "typ" ∧ get_ident "match" = "mach" ∧
    ∀ s : String, s ≠ "type" → s ≠ "match" →
      get_ident s = ⟨s.data.dropWhile (fun c => c == '_')⟩ := by
  refine ⟨by decide, by decide, ?_⟩
  intro s h1 h2
  simp only [get_ident, if_neg h1, if_neg h2, trimStartMatchesL]
  rw [trimStartAux_underscore s.data.length s.data le_rfl]

/-- C2 witness: `"_foo"` maps to `"foo"` and `"bar"` maps to `"bar"`. -/
theorem c2_witness :
    get_ident "_foo" = "foo" ∧ get_ident "bar" = "bar" := by
  constructor
  · rw [c2_get_ident_amended.2.2 "_foo" (by decide) (by decide)]
    decide
  · rw [c2_get_ident_amended.2.2 "bar" (by decide) (by decide)]
    decide

/-- With a positive right bound the checked merge sort always returns
normally (the guard subtraction cannot underflow in any recursive call). -/
theorem mergeSortChecked_ok :
    ∀ (n : Nat) (arr : List ImportsFiles) (left right : Nat), right - left ≤ n → 1 ≤ right →
      ∃ out, mergeSortChecked arr left right = .ok out := by
  intro n
  induction n with
  | zero =>
    intro arr left right hn h1
    rw [mergeSortChecked]
    split
    · next h =>
      exfalso
      simp [checkedSub, if_pos h1] at h
    · next r1 h =>
      have hr1 : r1 = right - 1 := by
        simp [checkedSub, if_pos h1] at h
        omega
      subst hr1
      rw [dif_neg (by omega)]
      exact ⟨arr, rfl⟩
  | succ n ih =>
    intro arr left right hn h1
    rw [mergeSortChecked]
    split
    · next h =>
      exfalso
      simp [checkedSub, if_pos h1] at h
    · next r1 h =>
      have hr1 : r1 = right - 1 := by
        simp [checkedSub, if_pos h1] at h
        omega
      subst hr1
      by_cases hg : right - 1 > left
      · rw [dif_pos hg]
        obtain ⟨a1, ha1⟩ := ih arr left (left + (right - left) / 2) (by omega) (by omega)
        obtain ⟨a2, ha2⟩ := ih a1 (left + (right - left) / 2) right (by omega) h1
        refine ⟨merge a2 left (left + (right - left) / 2) right, ?_⟩
        simp [ha1, ha2, Bind.bind, Except.bind, Pure.pure, Except.pure]
      · rw [dif_neg hg]
        exact ⟨arr, rfl⟩

/-- On the empty collection the checked merge sort aborts: the guard computes
the underflowing `0usize - 1`. -/
theorem mergeSortChecked_empty :
    ∀ arr : List ImportsFiles, mergeSortChecked arr 0 0 =
      .error "attempt to subtract with overflow" := by
  intro arr
  rw [mergeSortChecked]
  rfl

/-- C10: as invoked by the binding and package passes
(`merge_sort(collection, 0, collection.len())` on the types-file collection),
the sort returns normally if and only if the collection is non-empty: for the
empty collection the guard `right - 1` computes `0usize - 1`, which
underflows, so the call aborts instead of returning. -/
theorem c10_merge_sort_empty_crash (api_files : List (String × VppJsApiFile)) :
    (∃ out, mergeSortChecked (importCollection api_files) 0
        (importCollection api_files).length = .ok out) ↔
      importCollection api_files ≠ [] := by
  constructor
  · rintro ⟨out, hout⟩ hnil
    rw [hnil] at hout
    simp only [List.length_nil] at hout
    rw [mergeSortChecked_empty] at hout
    exact Except.noConfusion hout
  · intro h
    exact mergeSortChecked_ok (importCollection api_files).length _ 0 _ le_rfl
      (List.length_pos.mpr h)

/-- Splitting never yields an empty segment list. -/
theorem splitUnderscore_ne_nil : ∀ l : List Char, splitUnderscore l ≠ [] := by
  intro l
  cases l with
  | nil => simp [splitUnderscore]
  | cons c cs =>
    simp only [splitUnderscore]
    by_cases hc : c = '_'
    · simp [hc]
    · rw [if_neg hc]
      split <;> simp

/-- The split-then-capitalize loop of `camelize_ident` agrees with the
one-pass scanner: `camelScan true` from a segment start, `camelScan false`
inside a segment. -/
theorem camelScan_eq :
    ∀ l : List Char, camelScan true l = camelizeIdentL l ∧ camelScan false l = tailCamelL l := by
  intro l
  induction l with
  | nil => exact ⟨by decide, by decide⟩
  | cons c cs ih =>
    by_cases hc : c = '_'
    · subst hc
      constructor
      · simp [camelScan, camelizeIdentL, splitUnderscore, capitalizeSeg, ih.1]
      · simp only [camelScan, if_pos rfl, ih.1]
        simp [tailCamelL, splitUnderscore, camelizeIdentL]
    · cases h : splitUnderscore cs with
      | nil => exact absurd h (splitUnderscore_ne_nil cs)
      | cons s ss =>
        have htail : tailCamelL cs = s ++ ((ss.map capitalizeSeg).flatten) := by
          simp [tailCamelL, h]
        constructor
        · simp only [camelScan, if_neg hc, if_pos rfl, ih.2, htail]
          simp [camelizeIdentL, splitUnderscore, if_neg hc, h, capitalizeSeg]
        · simp only [camelScan, if_neg hc, ih.2, htail]
          simp [tailCamelL, splitUnderscore, if_neg hc, h]

/-- C1 (amended): for every wire type name beginning with `"vl_api_"` and
ending with `"_t"`, `get_type` removes ALL leading occurrences of the prefix
and ALL trailing occurrences of the suffix (Rust `trim_start_matches` /
`trim_end_matches` strip repeatedly), and converts the remainder to
upper-camel-case by splitting on underscores and uppercasing each segment's
first character (stated via the independent one-pass scanner `camelScan`). -/
theorem c1_map_type_identifier_trims_all :
    ∀ s : String, ("vl_api_".data).isPrefixOf s.data = true →
      ("_t".data).isSuffixOf s.data = true →
      get_type s =
        ⟨camelScan true
          (trimEndMatchesL ("_t".data) (trimStartMatchesL ("vl_api_".data) s.data))⟩ := by
  intro s hpre _hsuf
  simp only [get_type, hpre, if_pos, camelize_ident]
  exact congrArg String.mk (camelScan_eq _).1.symm

/-- C1 witness: `"vl_api_sw_interface_t"` maps to `"SwInterface"`, and the
trim-then-scan characterization applies to it. -/
theorem c1_witness :
    ("vl_api_".data).isPrefixOf ("vl_api_sw_interface_t" : String).data = true ∧
    ("_t".data).isSuffixOf ("vl_api_sw_interface_t" : String).data = true ∧
    get_type "vl_api_sw_interface_t" =
      ⟨camelScan true
        (trimEndMatchesL ("_t".data)
          (trimStartMatchesL ("vl_api_".data) ("vl_api_sw_interface_t" : String).data))⟩ ∧
    get_type "vl_api_sw_interface_t" = "SwInterface" :=
  ⟨by decide, by decide,
    c1_map_type_identifier_trims_all "vl_api_sw_interface_t" (by decide) (by decide),
    by decide⟩

/-- A lowercase ASCII letter is not a delimiter. -/
theorem lower_not_delim : ∀ c : Char, isLowerChar c = true → isDelim c = false := by
  intro c h
  have hm : c ∈ lowerChars := of_decide_eq_true h
  fin_cases hm <;> decide

/-- A lowercase ASCII letter is not an uppercase ASCII letter. -/
theorem lower_not_upper : ∀ c : Char, isLowerChar c = true → isUpperChar c = false := by
  intro c h
  have hm : c ∈ lowerChars := of_decide_eq_true h
  fin_cases hm <;> decide

/-- A lowercase ASCII letter is not an underscore. -/
theorem lower_ne_underscore : ∀ c : Char, isLowerChar c = true → c ≠ '_' := by
  intro c h
  have hm : c ∈ lowerChars := of_decide_eq_true h
  fin_cases hm <;> decide

/-- `Char.toLower` fixes lowercase ASCII letters. -/
theorem lower_toLower : ∀ c : Char, isLowerChar c = true → Char.toLower c = c := by
  intro c h
  have hm : c ∈ lowerChars := of_decide_eq_true h
  fin_cases hm <;> decide

/-- On input made of underscores and lowercase letters, the delimiter split
of the case converter is exactly the underscore split. -/
theorem delimSegs_eq_split :
    ∀ l : List Char, (∀ c ∈ l, c = '_' ∨ isLowerChar c = true) →
      delimSegs l = splitUnderscore l := by
  intro l
  induction l with
  | nil => intro _; rfl
  | cons c cs ih =>
    intro h
    have hcs : ∀ x ∈ cs, x = '_' ∨ isLowerChar x = true := fun x hx => h x (by simp [hx])
    rcases h c (by simp) with hc | hc
    · subst hc
      simp [delimSegs, splitUnderscore, isDelim, ih hcs]
    · have h1 : isDelim c = false := lower_not_delim c hc
      have h2 : c ≠ '_' := lower_ne_underscore c hc
      simp only [delimSegs, splitUnderscore, h1, Bool.false_eq_true, if_false, if_neg h2,
        ih hcs]

/-- Every character of every segment of an underscore/lowercase input is a
lowercase letter. -/
theorem split_all_lower :
    ∀ l : List Char, (∀ c ∈ l, c = '_' ∨ isLowerChar c = true) →
      ∀ s ∈ splitUnderscore l, ∀ c ∈ s, isLowerChar c = true := by
  intro l
  induction l with
  | nil =>
    intro _ s hs x hx
    simp [splitUnderscore] at hs
    subst hs
    simp at hx
  | cons c cs ih =>
    intro h s hs x hx
    have hcs : ∀ y ∈ cs, y = '_' ∨ isLowerChar y = true := fun y hy => h y (by simp [hy])
    rcases h c (by simp) with hc | hc
    · subst hc
      rw [show splitUnderscore ('_' :: cs) = [] :: splitUnderscore cs by simp [splitUnderscore]]
        at hs
      rcases List.mem_cons.mp hs with hs | hs
      · subst hs; simp at hx
      · exact ih hcs s hs x hx
    · have h2 : c ≠ '_' := lower_ne_underscore c hc
      cases hsp : splitUnderscore cs with
      | nil => exact absurd hsp (splitUnderscore_ne_nil cs)
      | cons t ts =>
        rw [show splitUnderscore (c :: cs) = (c :: t) :: ts by
          simp [splitUnderscore, if_neg h2, hsp]] at hs
        rcases List.mem_cons.mp hs with hs | hs
        · subst hs
          rcases List.mem_cons.mp hx with hx | hx
          · subst hx; exact hc
          · exact ih hcs t (by rw [hsp]; exact List.mem_cons_self t ts) x hx
        · exact ih hcs s (by rw [hsp]; exact List.mem_cons_of_mem t hs) x hx

/-- A nonempty all-lowercase run has no case boundary: it is one word. -/
theorem caseSplit_all_lower :
    ∀ w : List Char, (∀ c ∈ w, isLowerChar c = true) → w ≠ [] → caseSplit w = [w] := by
  intro w
  induction w with
  | nil => intro _ h; exact absurd rfl h
  | cons a tail ih =>
    intro h _
    cases tail with
    | nil => rfl
    | cons b rest =>
      have hb : isUpperChar b = false := lower_not_upper b (h b (by simp))
      have ha : isUpperChar a = false := lower_not_upper a (h a (by simp))
      have htail : ∀ c ∈ b :: rest, isLowerChar c = true := fun c hc => h c (by simp at hc ⊢; tauto)
      simp only [caseSplit, hb, ha, Bool.and_false, Bool.false_and, Bool.or_self,
        Bool.false_eq_true, if_false, ih htail (by simp)]

/-- UpperCamel word rendering agrees with the segment capitalization of
`camelize_ident` on all-lowercase words. -/
theorem renderWord_all_lower :
    ∀ w : List Char, (∀ c ∈ w, isLowerChar c = true) → renderWord w = capitalizeSeg w := by
  intro w h
  cases w with
  | nil => rfl
  | cons c cs =>
    simp only [renderWord, capitalizeSeg, List.cons.injEq, true_and]
    have : ∀ t : List Char, (∀ c ∈ t, isLowerChar c = true) → t.map Char.toLower = t := by
      intro t
      induction t with
      | nil => intro _; rfl
      | cons d ds ihd =>
        intro ht
        simp [lower_toLower d (ht d (by simp)), ihd (fun y hy => ht y (by simp [hy]))]
    exact this cs (fun y hy => h y (by simp [hy]))

/-- Flattening after mapping over the nonempty-filtered segments equals
flattening after mapping over all segments, for a map sending `[]` to `[]`. -/
theorem flatten_filter_ne :
    ∀ (segs : List (List Char)) (f : List Char → List Char), f [] = [] →
      ((segs.filter (fun w => w ≠ [])).map f).flatten = (segs.map f).flatten := by
  intro segs f hf
  induction segs with
  | nil => rfl
  | cons s t ih =>
    by_cases hs : s = []
    · subst hs
      have hfil : List.filter (fun w => decide (w ≠ [])) (([] : List Char) :: t) =
          List.filter (fun w => decide (w ≠ [])) t := by simp
      rw [hfil, ih]
      simp [hf]
    · have hfil : List.filter (fun w => decide (w ≠ [])) (s :: t) =
          s :: List.filter (fun w => decide (w ≠ [])) t := by simp [hs]
      rw [hfil]
      simp only [List.map_cons, List.flatten_cons, ih]

/-- Flattening singleton lists is the identity. -/
theorem flatten_map_singleton :
    ∀ xs : List (List Char), (xs.map (fun s => [s])).flatten = xs := by
  intro xs
  induction xs with
  | nil => rfl
  | cons s t ih => simp [ih]

/-- On input made of underscores and lowercase ASCII letters the two
camelization strategies coincide (list level). -/
theorem camel_eq_on_lower :
    ∀ l : List Char, (∀ c ∈ l, c = '_' ∨ isLowerChar c = true) →
      camelizeIdentL l = toCaseUpperCamelL l := by
  intro l h
  unfold toCaseUpperCamelL
  rw [delimSegs_eq_split l h]
  have hseg := split_all_lower l h
  have h1 : ((splitUnderscore l).filter (fun w => w ≠ [])).map caseSplit =
      ((splitUnderscore l).filter (fun w => w ≠ [])).map (fun s => [s]) := by
    refine List.map_congr_left ?_
    intro s hs
    have hmem : s ∈ splitUnderscore l := List.mem_of_mem_filter hs
    have hne : s ≠ [] := by simpa using List.of_mem_filter hs
    exact caseSplit_all_lower s (hseg s hmem) hne
  rw [h1, flatten_map_singleton]
  have h2 : ((splitUnderscore l).filter (fun w => w ≠ [])).map renderWord =
      ((splitUnderscore l).filter (fun w => w ≠ [])).map capitalizeSeg := by
    refine List.map_congr_left ?_
    intro s hs
    exact renderWord_all_lower s (hseg s (List.mem_of_mem_filter hs))
  rw [h2, flatten_filter_ne _ capitalizeSeg rfl]
  rfl

/-- C6 (amended): the two camelization strategies produce identical output on
every ASCII identifier made of lowercase letters and underscores (on inputs
with uppercase runs they differ, see the counterexample). -/
theorem c6_camelize_agree_on_lower :
    ∀ s : String, (∀ c ∈ s.data, c = '_' ∨ isLowerChar c = true) →
      camelize_ident s = camelize s := by
  intro s h
  simp only [camelize_ident, camelize, toCaseUpperCamel]
  exact congrArg String.mk (camel_eq_on_lower s.data h)

/-- C6 witness: the two strategies agree on `"sw_interface_details"`. -/
theorem c6_witness :
    (∀ c ∈ ("sw_interface_details" : String).data, c = '_' ∨ isLowerChar c = true) ∧
    camelize_ident "sw_interface_details" = camelize "sw_interface_details" ∧
    camelize_ident "sw_interface_details" = "SwInterfaceDetails" :=
  ⟨by decide, c6_camelize_agree_on_lower "sw_interface_details" (by decide), by decide⟩

/-- Prefix trimming only removes characters. -/
theorem trimStartAux_subset :
    ∀ (fuel : Nat) (p s : List Char) (c : Char), c ∈ trimStartAux p fuel s → c ∈ s := by
  intro fuel
  induction fuel with
  | zero => intro p s c hc; exact hc
  | succ n ih =>
    intro p s c hc
    simp only [trimStartAux] at hc
    by_cases h : p ≠ [] ∧ p.isPrefixOf s
    · rw [if_pos h] at hc
      exact List.drop_subset p.length s (ih p (s.drop p.length) c hc)
    · rwa [if_neg h] at hc

/-- Suffix trimming only removes characters. -/
theorem trimEndAux_subset :
    ∀ (fuel : Nat) (p s : List Char) (c : Char), c ∈ trimEndAux p fuel s → c ∈ s := by
  intro fuel
  induction fuel with
  | zero => intro p s c hc; exact hc
  | succ n ih =>
    intro p s c hc
    simp only [trimEndAux] at hc
    by_cases h : p ≠ [] ∧ p.isSuffixOf s
    · rw [if_pos h] at hc
      exact List.take_subset (s.length - p.length) s (ih p _ c hc)
    · rwa [if_neg h] at hc

/-- C5 (amended): for every wire type name other than `"string"`, made of
lowercase ASCII letters and underscores, and whose resolved name is not a
registered enum, the base type produced inside `get_rust_field_type` (by
`get_rust_type_from_ctype`) equals `get_type` of the ctype.  (For
`"string"` the two differ, see the counterexample; for registered enums the
base type additionally carries the sized-enum wrapper.) -/
theorem c5_base_type_amended :
    ∀ (ec : List (String × String)) (ctype : String),
      ctype ≠ "string" →
      (∀ c ∈ ctype.data, c = '_' ∨ isLowerChar c = true) →
      ec.lookup (resolveBaseName ctype) = none →
      get_rust_type_from_ctype ec ctype = get_type ctype := by
  intro ec ctype hstr hdom hlook
  simp only [get_rust_type_from_ctype, hlook]
  by_cases hp : ("vl_api_".data).isPrefixOf ctype.data
  · simp only [resolveBaseName, get_type, hp, if_pos, toCaseUpperCamel, camelize_ident]
    refine congrArg String.mk ?_
    have hdom' : ∀ c ∈ trimEndMatchesL ("_t".data) (trimStartMatchesL ("vl_api_".data) ctype.data),
        c = '_' ∨ isLowerChar c = true := by
      intro c hc
      refine hdom c ?_
      simp only [trimEndMatchesL, trimStartMatchesL] at hc
      exact trimStartAux_subset _ _ _ c (trimEndAux_subset _ _ _ c hc)
    exact (camel_eq_on_lower _ hdom').symm
  · simp [resolveBaseName, get_type, hp, hstr]

/-- C5 witness: on the registered-enum-free registry, the base type of
`"vl_api_ip_address_t"` agrees with `get_type`, both giving `"IpAddress"`. -/
theorem c5_witness :
    (("vl_api_ip_address_t" : String) ≠ "string") ∧
    (([] : List (String × String)).lookup (resolveBaseName "vl_api_ip_address_t") = none) ∧
    get_rust_type_from_ctype [] "vl_api_ip_address_t" = get_type "vl_api_ip_address_t" ∧
    get_type "vl_api_ip_address_t" = "IpAddress" :=
  ⟨by decide, by decide,
    c5_base_type_amended [] "vl_api_ip_address_t" (by decide) (by decide) (by decide),
    by decide⟩

/-- The merge of two runs is a permutation of their concatenation. -/
theorem mergeRunsAux_perm :
    ∀ (fuel : Nat) (l r : List ImportsFiles), List.Perm (mergeRunsAux fuel l r) (l ++ r) := by
  intro fuel
  induction fuel with
  | zero => intro l r; exact List.Perm.refl _
  | succ n ih =>
    intro l r
    cases l with
    | nil => simp [mergeRunsAux]
    | cons a l' =>
      cases r with
      | nil => simp [mergeRunsAux]
      | cons b r' =>
        simp only [mergeRunsAux]
        by_cases h : sortKey a < sortKey b
        · rw [if_pos h]
          simpa using (ih l' (b :: r')).cons a
        · rw [if_neg h]
          exact ((ih (a :: l') r').cons b).trans List.perm_middle.symm

/-- The merge of two runs is a permutation of their concatenation. -/
theorem mergeRuns_perm (l r : List ImportsFiles) : List.Perm (mergeRuns l r) (l ++ r) :=
  mergeRunsAux_perm _ l r

/-- Merging two runs sorted by import count yields a run sorted by import
count. -/
theorem mergeRunsAux_sorted :
    ∀ (fuel : Nat) (l r : List ImportsFiles), l.length + r.length ≤ fuel →
      List.Sorted impLe l → List.Sorted impLe r → List.Sorted impLe (mergeRunsAux fuel l r) := by
  intro fuel
  induction fuel with
  | zero =>
    intro l r hlen hl hr
    have h1 : l = [] := List.eq_nil_of_length_eq_zero (by omega)
    have h2 : r = [] := List.eq_nil_of_length_eq_zero (by omega)
    subst h1
    subst h2
    simp [mergeRunsAux]
  | succ n ih =>
    intro l r hlen hl hr
    cases l with
    | nil => simpa [mergeRunsAux] using hr
    | cons a l' =>
      cases r with
      | nil => simpa [mergeRunsAux] using hl
      | cons b r' =>
        rw [List.sorted_cons] at hl hr
        simp only [mergeRunsAux]
        by_cases h : sortKey a < sortKey b
        · rw [if_pos h, List.sorted_cons]
          refine ⟨?_, ih l' (b :: r') (by simp at hlen ⊢; omega) hl.2 (List.sorted_cons.mpr hr)⟩
          intro x hx
          rcases List.mem_append.mp ((mergeRunsAux_perm n l' (b :: r')).subset hx) with hx1 | hx2
          · exact hl.1 x hx1
          · rcases List.mem_cons.mp hx2 with rfl | hx3
            · exact Nat.le_of_lt h
            · exact Nat.le_trans (Nat.le_of_lt h) (hr.1 x hx3)
        · rw [if_neg h, List.sorted_cons]
          have hba : sortKey b ≤ sortKey a := by omega
          refine ⟨?_, ih (a :: l') r' (by simp at hlen ⊢; omega) (List.sorted_cons.mpr hl) hr.2⟩
          intro x hx
          rcases List.mem_append.mp ((mergeRunsAux_perm n (a :: l') r').subset hx) with hx1 | hx2
          · rcases List.mem_cons.mp hx1 with rfl | hx3
            · exact hba
            · exact Nat.le_trans hba (hl.1 x hx3)
          · exact hr.1 x hx2

/-- Merging two sorted runs yields a sorted run. -/
theorem mergeRuns_sorted (l r : List ImportsFiles)
    (hl : List.Sorted impLe l) (hr : List.Sorted impLe r) :
    List.Sorted impLe (mergeRuns l r) :=
  mergeRunsAux_sorted _ l r le_rfl hl hr

/-- Length of an in-range slice. -/
theorem listSlice_length (arr : List ImportsFiles) (a b : Nat)
    (hb : b ≤ arr.length) (hab : a ≤ b) : (listSlice arr a b).length = b - a := by
  simp only [listSlice, List.length_take, List.length_drop]
  omega

/-- Adjacent slices concatenate to the enclosing slice. -/
theorem listSlice_append (arr : List ImportsFiles) (a b c : Nat)
    (hab : a ≤ b) (hbc : b ≤ c) :
    listSlice arr a b ++ listSlice arr b c = listSlice arr a c := by
  simp only [listSlice]
  have h1 : arr.drop b = (arr.drop a).drop (b - a) := by
    rw [List.drop_drop]
    congr 1
    omega
  rw [h1, show c - a = (b - a) + (c - b) by omega, List.take_add]

/-- Lists of length at most one are sorted. -/
theorem sorted_of_len_le_one :
    ∀ X : List ImportsFiles, X.length ≤ 1 → List.Sorted impLe X := by
  intro X h
  cases X with
  | nil => simp
  | cons x t =>
    cases t with
    | nil => simp
    | cons y u => simp at h

/-- A list decomposes around any in-range slice. -/
theorem take_slice_drop (arr : List ImportsFiles) (left right : Nat)
    (h1 : left ≤ right) (_h2 : right ≤ arr.length) :
    arr.take left ++ listSlice arr left right ++ arr.drop right = arr := by
  simp only [listSlice]
  have h3 : arr.take right = arr.take left ++ (arr.drop left).take (right - left) :=
    calc arr.take right = arr.take (left + (right - left)) := by
          rw [show left + (right - left) = right by omega]
      _ = arr.take left ++ (arr.drop left).take (right - left) := List.take_add arr left _
  rw [← h3]
  exact List.take_append_drop right arr

/-- Dropping past a prefix. -/
theorem drop_append_ge (P Q : List ImportsFiles) (k : Nat) (hk : P.length ≤ k) :
    (P ++ Q).drop k = Q.drop (k - P.length) := by
  obtain ⟨m, rfl⟩ : ∃ m, k = P.length + m := ⟨k - P.length, by omega⟩
  rw [List.drop_append]
  congr 1
  omega

/-- Core invariant of the fuelled `merge_sort`: on an in-range interval with
sufficient fuel, the positions outside `left..right` are untouched and the
interval is replaced by a sorted permutation of its former contents. -/
theorem mergeSortAux_spec :
    ∀ (fuel : Nat) (arr : List ImportsFiles) (left right : Nat),
      right - left ≤ fuel → left ≤ right → right ≤ arr.length →
      ∃ X, mergeSortAux fuel arr left right = arr.take left ++ X ++ arr.drop right ∧
        List.Perm X (listSlice arr left right) ∧ List.Sorted impLe X := by
  intro fuel
  induction fuel with
  | zero =>
    intro arr left right hf hlr hr
    refine ⟨listSlice arr left right, ?_, List.Perm.refl _, ?_⟩
    · exact (take_slice_drop arr left right hlr hr).symm
    · apply sorted_of_len_le_one
      rw [listSlice_length arr left right hr hlr]
      omega
  | succ n ih =>
    intro arr left right hf hlr hr
    simp only [mergeSortAux]
    by_cases hg : right - 1 > left
    · rw [if_pos hg]
      set mid := left + (right - left) / 2 with hmid
      have hlm : left < mid := by omega
      have hmr : mid < right := by omega
      obtain ⟨X1, e1, p1, s1⟩ := ih arr left mid (by omega) (by omega) (by omega)
      have htakeleft : (arr.take left).length = left := by
        simp only [List.length_take]
        omega
      have lenX1 : X1.length = mid - left := by
        rw [p1.length_eq, listSlice_length arr left mid (by omega) (by omega)]
      have hpre : (arr.take left ++ X1).length = mid := by
        simp only [List.length_append, htakeleft, lenX1]
        omega
      have hA1len : (mergeSortAux n arr left mid).length = arr.length := by
        rw [e1]
        simp only [List.length_append, htakeleft, lenX1, List.length_drop]
        omega
      have hA1drop_mid : (mergeSortAux n arr left mid).drop mid = arr.drop mid := by
        rw [e1]
        exact List.drop_left' hpre
      have hA1take_mid : (mergeSortAux n arr left mid).take mid = arr.take left ++ X1 := by
        rw [e1]
        exact List.take_left' hpre
      obtain ⟨X2, e2, p2, s2⟩ := ih (mergeSortAux n arr left mid) mid right
        (by omega) (by omega) (by rw [hA1len]; omega)
      have hsliceA1 : listSlice (mergeSortAux n arr left mid) mid right =
          listSlice arr mid right := by
        simp only [listSlice, hA1drop_mid]
      have lenX2 : X2.length = right - mid := by
        rw [p2.length_eq, hsliceA1, listSlice_length arr mid right (by omega) (by omega)]
      have hA1drop_right : (mergeSortAux n arr left mid).drop right = arr.drop right := by
        rw [e1, drop_append_ge _ _ right (by rw [hpre]; omega), hpre, List.drop_drop]
        congr 1
        omega
      refine ⟨mergeRuns X1 X2, ?_, ?_, mergeRuns_sorted X1 X2 s1 s2⟩
      · rw [e2, hA1take_mid, hA1drop_right]
        have hassoc : ((arr.take left ++ X1) ++ X2) ++ arr.drop right =
            arr.take left ++ (X1 ++ (X2 ++ arr.drop right)) := by
          simp [List.append_assoc]
        have h_tl : (((arr.take left ++ X1) ++ X2) ++ arr.drop right).take left =
            arr.take left := by
          rw [hassoc]
          exact List.take_left' htakeleft
        have h_s1 : listSlice (((arr.take left ++ X1) ++ X2) ++ arr.drop right) left mid = X1 := by
          simp only [listSlice]
          rw [hassoc, List.drop_left' htakeleft]
          exact List.take_left' (by omega)
        have h_s2 : listSlice (((arr.take left ++ X1) ++ X2) ++ arr.drop right) mid right =
            X2 := by
          simp only [listSlice]
          rw [show ((arr.take left ++ X1) ++ X2) ++ arr.drop right =
            (arr.take left ++ X1) ++ (X2 ++ arr.drop right) from by simp [List.append_assoc]]
          rw [List.drop_left' hpre]
          exact List.take_left' (by omega)
        have h_dr : (((arr.take left ++ X1) ++ X2) ++ arr.drop right).drop right =
            arr.drop right := by
          refine List.drop_left' ?_
          simp only [List.length_append, htakeleft, lenX1, lenX2]
          omega
        simp only [merge, h_tl, h_s1, h_s2, h_dr]
      · have p2' : List.Perm X2 (listSlice arr mid right) := by
          rw [← hsliceA1]
          exact p2
        have happ := List.Perm.append p1 p2'
        rw [listSlice_append arr left mid right (by omega) (by omega)] at happ
        exact (mergeRuns_perm X1 X2).trans happ
    · rw [if_neg hg]
      refine ⟨listSlice arr left right, ?_, List.Perm.refl _, ?_⟩
      · exact (take_slice_drop arr left right hlr hr).symm
      · apply sorted_of_len_le_one
        rw [listSlice_length arr left right hr hlr]
        omega

/-- C7: for every non-empty types-file sequence, `merge_sort(arr, 0,
arr.len())` returns a permutation of the input that is in ascending order of
each file's own import-reference count. -/
theorem c7_merge_sort_sorts :
    ∀ arr : List ImportsFiles, arr ≠ [] →
      List.Perm (merge_sort arr 0 arr.length) arr ∧
      List.Sorted impLe (merge_sort arr 0 arr.length) := by
  intro arr _h
  obtain ⟨X, e, p, s⟩ :=
    mergeSortAux_spec (arr.length - 0) arr 0 arr.length le_rfl (by omega) le_rfl
  have hX : merge_sort arr 0 arr.length = X := by
    rw [merge_sort, e]
    simp
  have hslice : listSlice arr 0 arr.length = arr := by
    simp [listSlice]
  rw [hX]
  rw [hslice] at p
  exact ⟨p, s⟩

/-- C7 witness: the three-entry collection with import counts 2, 0, 1 is
permuted into ascending order 0, 1, 2. -/
theorem c7_witness :
    exArr ≠ [] ∧ List.Perm (merge_sort exArr 0 exArr.length) exArr ∧
    List.Sorted impLe (merge_sort exArr 0 exArr.length) ∧
    merge_sort exArr 0 exArr.length =
      [⟨"b", ⟨"", []⟩⟩, ⟨"c", ⟨"", ["z"]⟩⟩, ⟨"a", ⟨"", ["x", "y"]⟩⟩] :=
  ⟨by decide, (c7_merge_sort_sorts exArr (by decide)).1,
    (c7_merge_sort_sorts exArr (by decide)).2, by decide⟩

/-- C8 (amended): in every merge step, when the next left-half entry and the
next right-half entry have EQUAL import counts, the RIGHT-half entry is
placed before the left-half entry (the comparison is strict `<`, whose else
branch takes the right side), so entries with equal counts do not keep their
relative input order: the sort is deterministic but not stable. -/
theorem c8_merge_tie_right_first :
    ∀ (arr : List ImportsFiles) (left mid right : Nat) (x y : ImportsFiles)
      (l r : List ImportsFiles),
      listSlice arr left mid = x :: l → listSlice arr mid right = y :: r →
      sortKey x = sortKey y →
      merge arr left mid right =
        arr.take left ++ (y :: mergeRuns (x :: l) r) ++ arr.drop right := by
  intro arr left mid right x y l r hl hr hk
  have hstep : mergeRuns (x :: l) (y :: r) = y :: mergeRuns (x :: l) r := by
    simp only [mergeRuns, List.length_cons]
    rw [show l.length + 1 + (r.length + 1) = (l.length + 1 + r.length) + 1 from by omega]
    simp only [mergeRunsAux]
    rw [if_neg (by omega)]
  simp only [merge, hl, hr, hstep]

/-- C8 witness: merging the two singleton runs `[tieA]` and `[tieB]` of
equal count places `tieB` (from the right half) first. -/
theorem c8_witness :
    listSlice [tieA, tieB] 0 1 = [tieA] ∧ listSlice [tieA, tieB] 1 2 = [tieB] ∧
    sortKey tieA = sortKey tieB ∧
    merge [tieA, tieB] 0 1 2 =
      ([tieA, tieB].take 0) ++ (tieB :: mergeRuns [tieA] []) ++ ([tieA, tieB].drop 2) :=
  ⟨by decide, by decide, by decide,
    c8_merge_tie_right_first [tieA, tieB] 0 1 2 tieA tieB [] []
      (by decide) (by decide) (by decide)⟩

/-- Directory listings have positive size. -/
theorem entsSize_pos : ∀ es : List FsEntry, 1 ≤ entsSize es := by
  intro es
  cases es with
  | nil => simp [entsSize]
  | cons e r =>
    simp only [entsSize]
    omega

/-- Inserting a fresh key into the position-preserving map appends it. -/
theorem lhmInsert_append :
    ∀ (m : List (String × VppJsApiFile)) (k : String) (v : VppJsApiFile),
      k ∉ m.map Prod.fst → lhmInsert m k v = m ++ [(k, v)] := by
  intro m k v
  induction m with
  | nil => intro _; rfl
  | cons p rest ih =>
    intro h
    obtain ⟨k', v'⟩ := p
    simp only [List.map_cons, List.mem_cons] at h
    push_neg at h
    simp only [lhmInsert]
    rw [if_neg (Ne.symm h.1), ih h.2]
    rfl

/-- The keys of the successfully parsed files form a sublist of the walked
keys. -/
theorem successes_keys_sublist :
    ∀ (parse : String → Except String VppJsApiFile) (l : List (String × Except String String)),
      List.Sublist ((successes parse l).map Prod.fst) (l.map Prod.fst) := by
  intro parse l
  induction l with
  | nil => simp [successes]
  | cons pc t ih =>
    obtain ⟨p, c⟩ := pc
    simp only [successes, List.filterMap_cons, List.map_cons]
    cases c with
    | error e => exact ih.cons p
    | ok data =>
      cases hp : parse data with
      | ok dfile =>
        simp only [hp, List.map_cons]
        exact ih.cons₂ p
      | error e => simp only [hp]; exact ih.cons p

/-- Generalized tree-loader invariant: walking `entries` under `root` with an
accumulated map `m` and diagnostics `d` appends exactly the successfully
parsed files (keyed by full path, in walk order) to `m`, and exactly the
diagnostics of the failing files (in walk order) to `d`, provided the walked
paths collide neither with each other nor with the keys already in `m`. -/
theorem parseTree_go :
    ∀ (n : Nat) (entries : List FsEntry) (root : String)
      (parse : String → Except String VppJsApiFile)
      (m : List (String × VppJsApiFile)) (d : List String),
      entsSize entries ≤ n →
      (m.map Prod.fst ++ (walkList root entries).map Prod.fst).Nodup →
      parseTreeList parse root entries (m, d) =
        (m ++ successes parse (walkList root entries),
          d ++ failures parse (walkList root entries)) := by
  intro n
  induction n with
  | zero =>
    intro entries root parse m d hs _
    exact absurd hs (by have := entsSize_pos entries; omega)
  | succ n ih =>
    intro entries root parse m d hs hnd
    cases entries with
    | nil => simp [parseTreeList, walkList, successes, failures]
    | cons e rest =>
      cases e with
      | file name content =>
        have hsz : entsSize rest ≤ n := by
          simp only [entsSize, entSize] at hs
          omega
        have hw : walkList root (.file name content :: rest) =
            (root ++ "/" ++ name, content) :: walkList root rest := by
          simp [walkList, walkEntry]
        cases content with
        | ok data =>
          cases hp : parse data with
          | ok dfile =>
            have hstep : parseTreeList parse root (.file name (.ok data) :: rest) (m, d) =
                parseTreeList parse root rest (lhmInsert m (root ++ "/" ++ name) dfile, d) := by
              simp [parseTreeList, parseTreeEntry, hp]
            rw [hw] at hnd
            simp only [List.map_cons] at hnd
            have hpath : (root ++ "/" ++ name) ∉ m.map Prod.fst := by
              intro hmem
              exact List.disjoint_of_nodup_append hnd hmem (by simp)
            have hnd' : ((m ++ [(root ++ "/" ++ name, dfile)]).map Prod.fst ++
                (walkList root rest).map Prod.fst).Nodup := by
              simpa [List.append_assoc] using hnd
            rw [hstep, lhmInsert_append m _ dfile hpath, ih rest root parse _ d hsz hnd']
            rw [hw]
            simp only [successes, failures, List.filterMap_cons, hp]
            simp [List.append_assoc]
          | error er =>
            have hstep : parseTreeList parse root (.file name (.ok data) :: rest) (m, d) =
                parseTreeList parse root rest
                  (m, d ++ ["Error loading " ++ (root ++ "/" ++ name) ++ ": " ++ er]) := by
              simp [parseTreeList, parseTreeEntry, hp]
            rw [hw] at hnd
            simp only [List.map_cons] at hnd
            have hnd' : (m.map Prod.fst ++ (walkList root rest).map Prod.fst).Nodup := by
              refine List.Nodup.sublist ?_ hnd
              exact List.Sublist.append_left (List.sublist_cons_self _ _) _
            rw [hstep, ih rest root parse m _ hsz hnd']
            rw [hw]
            simp only [successes, failures, List.filterMap_cons, hp]
            simp [List.append_assoc]
        | error er =>
          have hstep : parseTreeList parse root (.file name (.error er) :: rest) (m, d) =
              parseTreeList parse root rest
                (m, d ++ ["Error reading " ++ (root ++ "/" ++ name) ++ ": " ++ er]) := by
            simp [parseTreeList, parseTreeEntry]
          rw [hw] at hnd
          simp only [List.map_cons] at hnd
          have hnd' : (m.map Prod.fst ++ (walkList root rest).map Prod.fst).Nodup := by
            refine List.Nodup.sublist ?_ hnd
            exact List.Sublist.append_left (List.sublist_cons_self _ _) _
          rw [hstep, ih rest root parse m _ hsz hnd']
          rw [hw]
          simp only [successes, failures, List.filterMap_cons]
          simp [List.append_assoc]
      | dir name sub =>
        have hszs : entsSize sub ≤ n ∧ entsSize rest ≤ n := by
          simp only [entsSize, entSize] at hs
          omega
        by_cases hc : name ≠ "." ∧ name ≠ ".."
        · have hw : walkList root (.dir name sub :: rest) =
              walkList (root ++ "/" ++ name) sub ++ walkList root rest := by
            simp [walkList, walkEntry, hc]
          have hstep : parseTreeList parse root (.dir name sub :: rest) (m, d) =
              parseTreeList parse root rest
                (parseTreeList parse (root ++ "/" ++ name) sub (m, d)) := by
            simp [parseTreeList, parseTreeEntry, hc]
          rw [hw] at hnd
          simp only [List.map_append] at hnd
          have hndsub : (m.map Prod.fst ++
              (walkList (root ++ "/" ++ name) sub).map Prod.fst).Nodup := by
            refine List.Nodup.sublist ?_ hnd
            exact List.Sublist.append_left (List.sublist_append_left _ _) _
          have hinner := ih sub (root ++ "/" ++ name) parse m d hszs.1 hndsub
          have hnd2 : ((m ++ successes parse (walkList (root ++ "/" ++ name) sub)).map Prod.fst ++
              (walkList root rest).map Prod.fst).Nodup := by
            refine List.Nodup.sublist ?_ hnd
            simp only [List.map_append, List.append_assoc]
            refine List.Sublist.append_left ?_ (m.map Prod.fst)
            exact List.Sublist.append_right (successes_keys_sublist parse _) _
          rw [hstep, hinner, ih rest root parse _ _ hszs.2 hnd2]
          rw [hw]
          simp [successes, failures, List.filterMap_append, List.append_assoc]
        · have hw : walkList root (.dir name sub :: rest) = walkList root rest := by
            simp only [walkList, walkEntry, if_neg hc]
            rfl
          have hstep : parseTreeList parse root (.dir name sub :: rest) (m, d) =
              parseTreeList parse root rest (m, d) := by
            simp [parseTreeList, parseTreeEntry, if_neg hc]
          rw [hw] at hnd
          rw [hstep, ih rest root parse m d hszs.2 hnd, hw]

/-- C9: for every directory tree whose walked file paths are distinct, the
tree loader returns exactly the successfully read-and-parsed files, keyed by
their full paths in first-seen walk order, and one diagnostic naming the path
and the error for each file that fails to read or parse; a failing file is
skipped and the walk continues. -/
theorem c9_tree_loader_partial_failure :
    ∀ (parse : String → Except String VppJsApiFile) (root : String) (entries : List FsEntry),
      ((walkFiles root entries).map Prod.fst).Nodup →
      parse_api_tree parse root entries [] [] =
        (successes parse (walkFiles root entries), failures parse (walkFiles root entries)) := by
  intro parse root entries hnd
  have h := parseTree_go (entsSize entries) entries root parse [] [] le_rfl
    (by simpa [walkFiles] using hnd)
  simpa [parse_api_tree, walkFiles] using h

/-- C9 witness: a directory with one malformed and two well-formed files
yields a loaded-file count of 2, the two good files keyed by full path in
walk order, and a single diagnostic naming the malformed path and the parse
error. -/
theorem c9_witness :
    ((walkFiles "root" exTree).map Prod.fst).Nodup ∧
    parse_api_tree exParse "root" exTree [] [] =
      (successes exParse (walkFiles "root" exTree), failures exParse (walkFiles "root" exTree)) ∧
    (parse_api_tree exParse "root" exTree [] []).1 =
      [("root/a.api.json", ⟨"A", []⟩), ("root/c.api.json", ⟨"C", []⟩)] ∧
    (parse_api_tree exParse "root" exTree [] []).1.length = 2 ∧
    (parse_api_tree exParse "root" exTree [] []).2 =
      ["Error loading root/bad.api.json: expected value"] :=
  ⟨by decide, c9_tree_loader_partial_failure exParse "root" exTree (by decide),
    by decide, by decide, by decide⟩

end VppApiGen
